import Mathlib

/-!
Verification development for the incremental evaluation engine of
diffpy.srfit: a shallow embedding of
`src/diffpy/srfit/equation/visitors/evaluator.py` (the `Evaluator` visitor,
its `Helper` and the proxy scheme) and of
`src/diffpy/srfit/equation/literals/operators.py` (the `Operator` node
contract and the concrete `ConvolutionOperator`).

Modelling conventions:
* Values carried by the tree are modelled as integers (`Value := Int`); the
  engine treats them opaquely, so any carrier works.  The convolution
  operator, whose contract is genuinely numeric, is modelled over `ℚ`.
* Operation functions and partition combine functions are modelled as Lean
  functions `List Value → Value` applied to the positional argument list.
* Clickers (version trackers): the `Clicker` class itself is not under
  `src/`.  Modelled from the spec: every node stores the local version of
  its clicker (`clk`), `advance` sets the local version to a fresh global
  maximum, and subject registration performed by `Operator.addLiteral`
  (`self.clicker.addSubject(literal.clicker)`) is structural, so the
  effective version of an operator node is the maximum of its own local
  version and the effective versions of its arguments (`effv` below).  The
  staleness test `op.clicker > self._clicker` compares the node's effective
  version with the evaluator clicker's local version.
* Mutable state is passed explicitly: the evaluator state (`value`,
  `_atroot`) is an `EState`, and the per-operator cached proxy (`_proxy`)
  lives inside the tree node, so a traversal returns the updated tree
  together with the updated evaluator state.  `EState.calls` instruments
  the number of invocations of `operation` (it corresponds to no Python
  attribute; it only counts the call sites of `self.op.operation(...)`).
* `Partition._prepare` (external to `src/`) refreshes the partition's
  internal `_partvals`; in the model a partition's `pvals` field always
  holds its current part values, so `_prepare` is the identity.
* `Generator` nodes appear in no claim and are omitted from the tree type.
-/

namespace Srfit

/-- Values flowing through the equation tree. -/
abbrev Value := Int

/-- `Partition.tagmap`: a map from tag name to the list of part indices
carrying that tag (a Python dict, modelled as an association list). -/
abbrev Tagmap := List (String × List Nat)

/-- `tagmap.get(tag, [])` — dictionary lookup with default. -/
def tagmapGet : Tagmap → String → List Nat
  | [], _ => []
  | (s, l) :: rest, t => if s = t then l else tagmapGet rest t

/-- The cached result proxy stored in `Operator._proxy`.
`argP` models an `Argument` proxy (parts mode, scalar result), `partP`
models an `Evaluator._PseudoPartition` proxy (parts mode, partition-shaped
result), and `rawP` models the raw value that `onOperatorNoParts` stores
directly in `op._proxy`. -/
inductive Proxy : Type where
  | argP (value : Value)
  | partP (pvals : List Value) (tagmap : Tagmap) (comb : List Value → Value)
      (ptags : List String)
  | rawP (value : Value)

mutual
/-- Equation tree nodes (`Literal`): `arg` is an `Argument` leaf, `part` a
`Partition` (part values, tagmap, combine function, tag list, clicker),
`oper` an `Operator` (operation, selector tags `_tags`, `_cancombine`,
clicker, cached `_proxy`, ordered argument list). -/
inductive Literal : Type where
  | arg (value : Value) (clk : Nat)
  | part (pvals : List Value) (tagmap : Tagmap) (comb : List Value → Value)
      (ptags : List String) (clk : Nat)
  | oper (operation : List Value → Value) (tags : List String)
      (cancombine : Bool) (clk : Nat) (proxy : Option Proxy) (args : LitList)
/-- Ordered operator argument lists (`Operator.args`). -/
inductive LitList : Type where
  | lnil
  | lcons (hd : Literal) (tl : LitList)
end

mutual
/-- Modelled from the spec: the effective version of a node's clicker — the
maximum of its own local version and the effective versions of all its
subjects; `addLiteral` registers each argument's clicker as a subject of
the operator's clicker, so an operator's subjects are its arguments. -/
def effv : Literal → Nat
  | .arg _ clk => clk
  | .part _ _ _ _ clk => clk
  | .oper _ _ _ clk _ args => max clk (effvList args)
/-- Effective version of a list of subject nodes. -/
def effvList : LitList → Nat
  | .lnil => 0
  | .lcons a t => max (effv a) (effvList t)
end

/-- The data the `Helper` keeps about one recognised partition argument
(the partition-like object stored in `Helper.args` at a `partidx`
position: its `_partvals`, `tagmap`, `combine` and `tags`). -/
structure PartInfo where
  pvals : List Value
  tagmap : Tagmap
  comb : List Value → Value
  ptags : List String

/-- State of `Evaluator.Helper` after collecting arguments: `argvals` is
the positional value list (with a placeholder `0` standing for Python's
`None` at each partition slot) and `parts` pairs each partition's position
with its data (this combines the Python `partidx` list with the lookup
`self.args[idx]`). -/
structure Helper where
  argvals : List Value
  parts : List (Nat × PartInfo)

/-- `Helper.onArgument`: record a plain value. -/
def Helper.collectArg (h : Helper) (v : Value) : Helper :=
  { h with argvals := h.argvals ++ [v] }

/-- `Helper.onPartition`: record a partition plus its position. -/
def Helper.collectPart (h : Helper) (p : PartInfo) : Helper :=
  { argvals := h.argvals ++ [0], parts := h.parts ++ [(h.argvals.length, p)] }

/-- Dispatch of `literal.identify(helper)` for one already-evaluated
argument: arguments and partitions are recorded directly;
`Helper.onOperator` forwards to the operator's cached proxy
(`op._proxy.identify(self)`).  A `none` proxy raises `AttributeError` in
Python and a raw (`rawP`) proxy would as well; both are modelled as
recording a plain value so that the function stays total — no claim
exercises these states. -/
def Helper.onLiteral (h : Helper) : Literal → Helper
  | .arg v _ => h.collectArg v
  | .part pv tm cb tg _ => h.collectPart ⟨pv, tm, cb, tg⟩
  | .oper _ _ _ _ px _ =>
    match px with
    | some (.argP v) => h.collectArg v
    | some (.partP pv tm cb tg) => h.collectPart ⟨pv, tm, cb, tg⟩
    | some (.rawP v) => h.collectArg v
    | none => h.collectArg 0

/-- The index set built at the top of `Helper.evaluatePartition`: the union
over the operator's `_tags` of `tagmap.get(tag, [])` (a Python set,
modelled as a duplicate-free list); if that union is empty, all indices
`range(len(partvals))` when the operator has no tags, otherwise the empty
selection. -/
def selectedIdxs (tags : List String) (tm : Tagmap) (n : Nat) : List Nat :=
  let collected := ((tags.map (fun t => tagmapGet tm t)).flatten).dedup
  if collected.isEmpty then (if tags.isEmpty then List.range n else []) else collected

/-- The loop of `Helper.evaluatePartition`: for each selected index,
substitute that part's value into the partition's positional slot `pidx`
of `argvals` and store `operation(*argvals)` back into the working copy of
the part values. -/
def partLoop (f : List Value → Value) (avals : List Value) (pidx : Nat)
    (idxs : List Nat) (pv : List Value) : List Value :=
  idxs.foldl (fun acc i => acc.set i (f (avals.set pidx (acc.getD i 0)))) pv

/-- The multi-partition loop of `Helper.evaluate`: each partition argument
is replaced in `argvals` by `part.combine(part._partvals)`. -/
def combineAll (ps : List (Nat × PartInfo)) (av : List Value) : List Value :=
  ps.foldl (fun acc q => acc.set q.1 (q.2.comb q.2.pvals)) av

/-- Result of `Helper.evaluate`: the fields `part`, `partvals`, `value` of
the helper after evaluation, plus the instrumented number of `operation`
invocations.  `value := 0` stands for Python's `None` while the result is
still partition-shaped. -/
structure HResult where
  part : Option PartInfo
  partvals : List Value
  value : Value
  calls : Nat

/-- `Helper.evaluate`: with exactly one partition argument run
`evaluatePartition` (the result stays partition-shaped); otherwise reduce
every partition argument via its own combine function and run
`evaluateArgument`, i.e. apply `operation` once to the positional values. -/
def Helper.evaluate (f : List Value → Value) (optags : List String)
    (h : Helper) : HResult :=
  match h.parts with
  | [(pidx, pinfo)] =>
    let idxs := selectedIdxs optags pinfo.tagmap pinfo.pvals.length
    { part := some pinfo, partvals := partLoop f h.argvals pidx idxs pinfo.pvals,
      value := 0, calls := idxs.length }
  | ps =>
    { part := none, partvals := [],
      value := f (combineAll ps h.argvals), calls := 1 }

/-- `Helper.combine`: if the evaluation result is still partition-shaped,
reduce it with the partition's combine function; otherwise do nothing. -/
def HResult.combineStep (r : HResult) : HResult :=
  match r.part with
  | none => r
  | some pinfo => { r with value := pinfo.comb r.partvals, part := none }

/-- Evaluator state: `value` and `_atroot`, plus the instrumentation
counter for `operation` invocations. -/
structure EState where
  value : Value
  atroot : Bool
  calls : Nat

mutual
/-- `literal.identify(evaluator)` for an `Evaluator(parts=True)` whose
clicker has local version `eclk`.  Returns the updated tree (cached
proxies) and evaluator state.  `onArgument` sets the value and clears
`_atroot`; `onPartition` prepares the partition when stale and combines at
the root; `onOperator` recomputes through `_createProxy` when
`op.clicker > self._clicker` and otherwise only clears `_atroot` (the
memoized branch does not touch `self.value`). -/
def identifyP (eclk : Nat) : Literal → EState → Literal × EState
  | .arg v clk, s => (.arg v clk, { s with value := v, atroot := false })
  | .part pv tm cb tg clk, s =>
    (.part pv tm cb tg clk,
      if clk > eclk then (if s.atroot then { s with value := cb pv } else s) else s)
  | .oper f tags cc clk px args, s =>
    if max clk (effvList args) > eclk then
      -- `Evaluator._createProxy`
      let wasRoot := s.atroot
      let res := identifyArgsP eclk args { s with atroot := false } ⟨[], []⟩
      let r := Helper.evaluate f tags res.2.2
      let r2 := if wasRoot || cc then r.combineStep else r
      let s3 := { res.2.1 with calls := res.2.1.calls + r2.calls }
      match r2.part with
      | some pinfo =>
        (.oper f tags cc clk
          (some (.partP r2.partvals pinfo.tagmap pinfo.comb pinfo.ptags)) res.1,
          { s3 with atroot := false })
      | none =>
        (.oper f tags cc clk (some (.argP r2.value)) res.1,
          { s3 with value := r2.value, atroot := false })
    else (.oper f tags cc clk px args, { s with atroot := false })
/-- The argument loop of `_createProxy`: each argument is first evaluated
by the evaluator (`arg.identify(self)`) and then collected by the helper
(`arg.identify(helper)`), in order. -/
def identifyArgsP (eclk : Nat) : LitList → EState → Helper → LitList × EState × Helper
  | .lnil, s, h => (.lnil, s, h)
  | .lcons a t, s, h =>
    let ra := identifyP eclk a s
    let rt := identifyArgsP eclk t ra.2 (Helper.onLiteral h ra.1)
    (.lcons ra.1 rt.1, rt.2)
end

mutual
/-- `literal.identify(evaluator)` for an `Evaluator(parts=False)`, whose
`onOperator` is `onOperatorNoParts`: when stale, visit the arguments
collecting `self.value` after each, apply `operation` once, store the raw
result in `op._proxy`; when memoized set `self.value = op._proxy`
(a non-`rawP` proxy there would be Python's `None` or a stray
parts-mode proxy object; modelled as the value `0`).  `onArgument` and
`onPartition` are shared with the parts mode. -/
def identifyNP (eclk : Nat) : Literal → EState → Literal × EState
  | .arg v clk, s => (.arg v clk, { s with value := v, atroot := false })
  | .part pv tm cb tg clk, s =>
    (.part pv tm cb tg clk,
      if clk > eclk then (if s.atroot then { s with value := cb pv } else s) else s)
  | .oper f tags cc clk px args, s =>
    if max clk (effvList args) > eclk then
      let res := identifyArgsNP eclk args s
      let v := f res.2.2
      (.oper f tags cc clk (some (.rawP v)) res.1,
        { res.2.1 with value := v, atroot := false, calls := res.2.1.calls + 1 })
    else
      let v := match px with
        | some (.rawP w) => w
        | _ => 0
      (.oper f tags cc clk px args, { s with value := v, atroot := false })
/-- The argument loop of `onOperatorNoParts`: visit each argument and
append `self.value` to `vals`. -/
def identifyArgsNP (eclk : Nat) : LitList → EState → LitList × EState × List Value
  | .lnil, s => (.lnil, s, [])
  | .lcons a t, s =>
    let ra := identifyNP eclk a s
    let v := ra.2.value
    let rt := identifyArgsNP eclk t ra.2
    (.lcons ra.1 rt.1, rt.2.1, v :: rt.2.2)
end

/-- One full traversal from the root by a fresh-state `Evaluator(parts=True)`
retaining value `v0` from before: `_atroot` is true and the call counter
starts at zero. -/
def evalOnceP (eclk : Nat) (t : Literal) (v0 : Value) : Literal × EState :=
  identifyP eclk t ⟨v0, true, 0⟩

/-- One full traversal from the root by an `Evaluator(parts=False)`. -/
def evalOnceNP (eclk : Nat) (t : Literal) (v0 : Value) : Literal × EState :=
  identifyNP eclk t ⟨v0, true, 0⟩

mutual
/-- A tree contains no `Partition` node anywhere. -/
def partFree : Literal → Bool
  | .arg _ _ => true
  | .part _ _ _ _ _ => false
  | .oper _ _ _ _ _ args => partFreeList args
/-- `partFree` over an argument list. -/
def partFreeList : LitList → Bool
  | .lnil => true
  | .lcons a t => partFree a && partFreeList t
end

mutual
/-- Every operator node in the tree is stale with respect to the evaluator
clicker `eclk` (a fresh, never-traversed tree evaluated by a fresh
evaluator). -/
def allStale (eclk : Nat) : Literal → Bool
  | .arg _ _ => true
  | .part _ _ _ _ _ => true
  | .oper _ _ _ clk _ args =>
    (decide (eclk < max clk (effvList args))) && allStaleList eclk args
/-- `allStale` over an argument list. -/
def allStaleList (eclk : Nat) : LitList → Bool
  | .lnil => true
  | .lcons a t => allStale eclk a && allStaleList eclk t
end

mutual
/-- The plain bottom-up value of a partition-free tree: each operator
applies its operation to its arguments' values. -/
def pureEval : Literal → Value
  | .arg v _ => v
  | .part pv _ cb _ _ => cb pv
  | .oper f _ _ _ _ args => f (pureEvalList args)
/-- `pureEval` over an argument list. -/
def pureEvalList : LitList → List Value
  | .lnil => []
  | .lcons a t => pureEval a :: pureEvalList t
end

mutual
/-- The part-value sequences of every `Partition` node in the tree, in
traversal order (the observable state of all source partitions). -/
def partsOf : Literal → List (List Value)
  | .arg _ _ => []
  | .part pv _ _ _ _ => [pv]
  | .oper _ _ _ _ _ args => partsOfList args
/-- `partsOf` over an argument list. -/
def partsOfList : LitList → List (List Value)
  | .lnil => []
  | .lcons a t => partsOf a ++ partsOfList t
end

/-- Append two argument lists. -/
def appLL : LitList → LitList → LitList
  | .lnil, l => l
  | .lcons a t, l => .lcons a (appLL t l)

/-- An argument list of `Argument` leaves holding the given values. -/
def leafListOf : List Value → LitList
  | [] => .lnil
  | v :: vs => .lcons (.arg v 0) (leafListOf vs)

/-- The argument list of an operator with exactly one `Partition`
argument: plain leaves `pre`, the partition, plain leaves `post`. -/
def onePartArgs (pre : List Value) (P : Literal) (post : List Value) : LitList :=
  appLL (leafListOf pre) (.lcons P (leafListOf post))

/-- Leaf nodes (an `Argument` or a `Partition`). -/
def isLeaf : Literal → Bool
  | .arg _ _ => true
  | .part _ _ _ _ _ => true
  | .oper _ _ _ _ _ _ => false

/-- Every member of the argument list is a leaf node. -/
def allLeaves : LitList → Bool
  | .lnil => true
  | .lcons a t => isLeaf a && allLeaves t

/-- Number of `Partition` nodes among the arguments (the `numparts` of
`Helper.evaluate`). -/
def countParts : LitList → Nat
  | .lnil => 0
  | .lcons (.part _ _ _ _ _) t => countParts t + 1
  | .lcons _ t => countParts t

/-- The positional values the helper collects from a list of leaf
arguments: an argument's value, or the `None` placeholder (`0`) for a
partition. -/
def rawVals : LitList → List Value
  | .lnil => []
  | .lcons (.arg v _) t => v :: rawVals t
  | .lcons (.part _ _ _ _ _) t => 0 :: rawVals t
  | .lcons (.oper _ _ _ _ _ _) t => 0 :: rawVals t

/-- The positional values after every partition argument has been reduced
by its own combine function (`part.combine(part._partvals)`), and plain
arguments keep their values. -/
def reducedVals : LitList → List Value
  | .lnil => []
  | .lcons (.arg v _) t => v :: reducedVals t
  | .lcons (.part pv _ cb _ _) t => cb pv :: reducedVals t
  | .lcons (.oper _ _ _ _ _ _) t => 0 :: reducedVals t

/-- The `(partidx, partition)` pairs the helper records from a list of
leaf arguments, with positions counted from `off`. -/
def partsIdxOf : LitList → Nat → List (Nat × PartInfo)
  | .lnil, _ => []
  | .lcons (.part pv tm cb tg _) t, off => (off, ⟨pv, tm, cb, tg⟩) :: partsIdxOf t (off + 1)
  | .lcons _ t, off => partsIdxOf t (off + 1)

/-!  The `Operator` node contract of
`src/diffpy/srfit/equation/literals/operators.py`. -/

/-- The `Operator` class: name, symbol, `nin` (negative means variadic),
`nout`, the operation function, the ordered argument list, the selector
tag set `_tags` (a Python set, modelled as a duplicate-free list), the
`_cancombine` flag, the cached `_proxy` and the clicker's local version. -/
structure Operator where
  name : Option String
  symbol : Option String
  nin : Int
  nout : Int
  operation : List Value → Value
  args : List Literal
  tags : List String
  cancombine : Bool
  proxy : Option Proxy
  clk : Nat

/-- Effective version over a plain list of argument nodes. -/
def effvL : List Literal → Nat
  | [] => 0
  | a :: t => max (effv a) (effvL t)

/-- Modelled from the spec: the effective version of an `Operator`'s
clicker, whose subjects are exactly the clickers of the arguments
registered by `addLiteral`. -/
def effvOp (o : Operator) : Nat := max o.clk (effvL o.args)

/-- `Operator.addLiteral(literal)`: append to `self.args` and register the
argument's clicker as a subject (`self.clicker.addSubject(literal.clicker)`;
the registration is structural in this model, see `effvOp`). -/
def Operator.addLiteral (o : Operator) (lit : Literal) : Operator :=
  { o with args := o.args ++ [lit] }

/-- `Operator.setCombine(combine)`: only when the flag actually changes,
set `_cancombine`, drop the cached proxy and click the operator's clicker
(`advance` issues a version above the global counter `counter`).  Returns
the updated operator and global counter. -/
def Operator.setCombine (o : Operator) (flag : Bool) (counter : Nat) : Operator × Nat :=
  if flag ≠ o.cancombine then
    ({ o with cancombine := flag, proxy := none, clk := counter + 1 }, counter + 1)
  else (o, counter)

/-- Insert a tag into the set `_tags` (Python `set.add`). -/
def tagInsert (ts : List String) (n : String) : List String :=
  if n ∈ ts then ts else ts ++ [n]

/-- `Operator.addTags(*args)`: add every given name to `_tags` (the source
uses `map(self._tags.add, args)`, eager under the Python 2 semantics this
2008 code targets), drop the cached proxy and click the clicker. -/
def Operator.addTags (o : Operator) (names : List String) (counter : Nat) : Operator × Nat :=
  ({ o with tags := names.foldl tagInsert o.tags, proxy := none, clk := counter + 1 },
    counter + 1)

/-- `Operator.clearTags()`: reset `_tags` to the empty set, drop the cached
proxy and click the clicker. -/
def Operator.clearTags (o : Operator) (counter : Nat) : Operator × Nat :=
  ({ o with tags := [], proxy := none, clk := counter + 1 }, counter + 1)

/-- Membership of a node in an argument list. -/
inductive MemLL : Literal → LitList → Prop where
  | head (a t) : MemLL a (.lcons a t)
  | tail (a b t) : MemLL a t → MemLL a (.lcons b t)

/-- Reflexive, transitive subtree relation on equation trees. -/
inductive SubtreeOf : Literal → Literal → Prop where
  | refl (t) : SubtreeOf t t
  | step {s a} (f : List Value → Value) (tags : List String) (cc : Bool)
      (clk : Nat) (px : Option Proxy) (args : LitList) :
      SubtreeOf s a → MemLL a args → SubtreeOf s (.oper f tags cc clk px args)

/-!  The `ConvolutionOperator` of `operators.py`, modelled over `ℚ`. -/

/-- One term `v1[i] * v2[k-i]` of the discrete convolution, zero when the
index falls outside `v2`. -/
def convTerm (v1 v2 : List ℚ) (k i : Nat) : ℚ :=
  if i ≤ k ∧ k - i < v2.length then v1.getD i 0 * v2.getD (k - i) 0 else 0

/-- Full discrete convolution (`numpy.convolve(v1, v2, mode="full")`):
`len(v1)+len(v2)-1` output points. -/
def convFull (v1 v2 : List ℚ) : List ℚ :=
  (List.range (v1.length + v2.length - 1)).map
    (fun k => ((List.range v1.length).map (convTerm v1 v2 k)).sum)

/-- `numpy.convolve(v1, v2, mode="same")`: the centered `max(M, N)`
elements of the full convolution, starting at `(min(M, N) - 1) // 2`. -/
def convSame (v1 v2 : List ℚ) : List ℚ :=
  ((convFull v1 v2).drop ((min v1.length v2.length - 1) / 2)).take
    (max v1.length v2.length)

/-- `ndarray.resize((n,))`: truncate to `n` elements, zero-filling if the
array is shorter. -/
def resizeTo (xs : List ℚ) (n : Nat) : List ℚ :=
  xs.take n ++ List.replicate (n - xs.length) 0

/-- The `conv` operation of `ConvolutionOperator`:
`numpy.convolve(v1, v2, mode="same") / sum(v2)` then `resize` to
`len(v1)`. -/
def convOp (v1 v2 : List ℚ) : List ℚ :=
  resizeTo ((convSame v1 v2).map (fun x => x / v2.sum)) v1.length

/-!  List utilities used throughout the proofs. -/

theorem getD_set_self {α : Type} (l : List α) (i : Nat) (x d : α) (h : i < l.length) :
    (l.set i x).getD i d = x := by
  induction l generalizing i with
  | nil => simp at h
  | cons a t ih =>
    cases i with
    | zero => rfl
    | succ i => simpa using ih i (by simpa using h)

theorem getD_set_ne {α : Type} (l : List α) (i j : Nat) (x d : α) (h : i ≠ j) :
    (l.set i x).getD j d = l.getD j d := by
  induction l generalizing i j with
  | nil => simp
  | cons a t ih =>
    cases i with
    | zero =>
      cases j with
      | zero => exact absurd rfl h
      | succ j => rfl
    | succ i =>
      cases j with
      | zero => rfl
      | succ j => simpa using ih i j (fun hc => h (by simp [hc]))

theorem set_append_len {α : Type} (a b : List α) (x y : α) :
    (a ++ x :: b).set a.length y = a ++ y :: b := by
  induction a with
  | nil => rfl
  | cons c t ih => simp [ih]

theorem getD_append_len {α : Type} (a b : List α) (x d : α) :
    (a ++ x :: b).getD a.length d = x := by
  induction a with
  | nil => rfl
  | cons c t ih => simpa using ih

/-!  Properties of the `evaluatePartition` selection and loop. -/

theorem partLoop_nil (f : List Value → Value) (avals : List Value) (pidx : Nat)
    (pv : List Value) : partLoop f avals pidx [] pv = pv := rfl

theorem partLoop_cons (f : List Value → Value) (avals : List Value) (pidx i : Nat)
    (idxs : List Nat) (pv : List Value) :
    partLoop f avals pidx (i :: idxs) pv =
      partLoop f avals pidx idxs (pv.set i (f (avals.set pidx (pv.getD i 0)))) := rfl

theorem partLoop_length (f : List Value → Value) (avals : List Value) (pidx : Nat)
    (idxs : List Nat) (pv : List Value) :
    (partLoop f avals pidx idxs pv).length = pv.length := by
  induction idxs generalizing pv with
  | nil => rfl
  | cons i t ih => rw [partLoop_cons, ih, List.length_set]

theorem partLoop_getD_of_not_mem (f : List Value → Value) (avals : List Value)
    (pidx : Nat) (idxs : List Nat) (pv : List Value) (j : Nat) (hj : j ∉ idxs) :
    (partLoop f avals pidx idxs pv).getD j 0 = pv.getD j 0 := by
  induction idxs generalizing pv with
  | nil => rfl
  | cons i t ih =>
    rw [partLoop_cons, ih _ (fun hm => hj (List.mem_cons_of_mem _ hm)),
      getD_set_ne _ _ _ _ _ (fun hc => hj (by rw [← hc]; exact List.mem_cons_self i t))]

theorem partLoop_getD_of_mem (f : List Value → Value) (avals : List Value)
    (pidx : Nat) (idxs : List Nat) (pv : List Value) (j : Nat)
    (hnd : idxs.Nodup) (hb : ∀ i ∈ idxs, i < pv.length) (hj : j ∈ idxs) :
    (partLoop f avals pidx idxs pv).getD j 0 = f (avals.set pidx (pv.getD j 0)) := by
  induction idxs generalizing pv with
  | nil => simp at hj
  | cons i t ih =>
    rw [partLoop_cons]
    rcases List.mem_cons.mp hj with hji | hjt
    · subst hji
      have hnotin : j ∉ t := (List.nodup_cons.mp hnd).1
      rw [partLoop_getD_of_not_mem _ _ _ _ _ _ hnotin,
        getD_set_self _ _ _ _ (hb j (List.mem_cons_self j t))]
    · have hne : i ≠ j := fun hc => (List.nodup_cons.mp hnd).1 (hc ▸ hjt)
      rw [ih _ (List.nodup_cons.mp hnd).2
          (fun k hk => by rw [List.length_set]; exact hb k (List.mem_cons_of_mem _ hk)) hjt,
        getD_set_ne _ _ _ _ _ hne]

theorem tagmapGet_bound {n : Nat} (tm : Tagmap)
    (h : ∀ p ∈ tm, ∀ i ∈ p.2, i < n) (t : String) :
    ∀ i ∈ tagmapGet tm t, i < n := by
  induction tm with
  | nil => simp [tagmapGet]
  | cons p rest ih =>
    intro i hi
    rw [tagmapGet] at hi
    split at hi
    · exact h p (List.mem_cons_self _ _) i hi
    · exact ih (fun q hq => h q (List.mem_cons_of_mem _ hq)) i hi

theorem selectedIdxs_nodup (tags : List String) (tm : Tagmap) (n : Nat) :
    (selectedIdxs tags tm n).Nodup := by
  rw [selectedIdxs]
  split
  · split
    · exact List.nodup_range n
    · exact List.nodup_nil
  · exact List.nodup_dedup _

theorem mem_selectedIdxs (tags : List String) (tm : Tagmap) (n j : Nat) :
    j ∈ selectedIdxs tags tm n ↔
      (if tags = [] then j < n else ∃ t ∈ tags, j ∈ tagmapGet tm t) := by
  rw [selectedIdxs]
  split
  · rename_i hempty
    have hnil : ((tags.map (fun t => tagmapGet tm t)).flatten) = [] :=
      (List.dedup_eq_nil _).mp (List.isEmpty_iff.mp hempty)
    have hall : ∀ t ∈ tags, tagmapGet tm t = [] := by
      intro t ht
      exact List.flatten_eq_nil_iff.mp hnil _ (List.mem_map_of_mem _ ht)
    split
    · rename_i htags
      rw [if_pos (List.isEmpty_iff.mp htags)]
      exact List.mem_range
    · rename_i htags
      rw [if_neg (fun hc => htags (by simp [hc]))]
      simp only [List.not_mem_nil, false_iff]
      rintro ⟨t, ht, hjt⟩
      rw [hall t ht] at hjt
      exact List.not_mem_nil j hjt
  · rename_i hempty
    have htags : tags ≠ [] := by
      intro hc
      subst hc
      simp [List.isEmpty_iff] at hempty
    rw [if_neg htags, List.mem_dedup, List.mem_flatten]
    constructor
    · rintro ⟨l, hl, hjl⟩
      rcases List.mem_map.mp hl with ⟨t, ht, rfl⟩
      exact ⟨t, ht, hjl⟩
    · rintro ⟨t, ht, hjt⟩
      exact ⟨tagmapGet tm t, List.mem_map_of_mem _ ht, hjt⟩

theorem selectedIdxs_bound {n : Nat} (tags : List String) (tm : Tagmap)
    (h : ∀ p ∈ tm, ∀ i ∈ p.2, i < n) :
    ∀ j ∈ selectedIdxs tags tm n, j < n := by
  intro j hj
  rw [mem_selectedIdxs] at hj
  split at hj
  · exact hj
  · rcases hj with ⟨t, _, hjt⟩
    exact tagmapGet_bound tm h t j hjt

/-!  How `_createProxy` collects a list of leaf arguments. -/

theorem identifyP_part_fst (eclk : Nat) (pv : List Value) (tm : Tagmap)
    (cb : List Value → Value) (tg : List String) (clk : Nat) (s : EState) :
    (identifyP eclk (.part pv tm cb tg clk) s).1 = .part pv tm cb tg clk := rfl

theorem identifyP_part_calls (eclk : Nat) (pv : List Value) (tm : Tagmap)
    (cb : List Value → Value) (tg : List String) (clk : Nat) (s : EState) :
    (identifyP eclk (.part pv tm cb tg clk) s).2.calls = s.calls := by
  simp only [identifyP]
  split
  · split <;> rfl
  · rfl

theorem allLeaves_leafListOf (vs : List Value) : allLeaves (leafListOf vs) = true := by
  induction vs with
  | nil => rfl
  | cons v t ih => simp [leafListOf, allLeaves, isLeaf, ih]

theorem rawVals_leafListOf (vs : List Value) : rawVals (leafListOf vs) = vs := by
  induction vs with
  | nil => rfl
  | cons v t ih => simp [leafListOf, rawVals, ih]

theorem partsIdxOf_leafListOf (vs : List Value) (off : Nat) :
    partsIdxOf (leafListOf vs) off = [] := by
  induction vs generalizing off with
  | nil => rfl
  | cons v t ih => simp [leafListOf, partsIdxOf, ih]

theorem allLeaves_onePart (pre post pv : List Value) (tm : Tagmap)
    (cb : List Value → Value) (tg : List String) (pclk : Nat) :
    allLeaves (onePartArgs pre (.part pv tm cb tg pclk) post) = true := by
  induction pre with
  | nil => simp [onePartArgs, appLL, leafListOf, allLeaves, isLeaf, allLeaves_leafListOf]
  | cons v t ih => simpa [onePartArgs, appLL, leafListOf, allLeaves, isLeaf] using ih

theorem rawVals_onePart (pre post pv : List Value) (tm : Tagmap)
    (cb : List Value → Value) (tg : List String) (pclk : Nat) :
    rawVals (onePartArgs pre (.part pv tm cb tg pclk) post) = pre ++ 0 :: post := by
  induction pre with
  | nil => simp [onePartArgs, appLL, leafListOf, rawVals, rawVals_leafListOf]
  | cons v t ih => simpa [onePartArgs, appLL, leafListOf, rawVals] using ih

theorem partsIdxOf_onePart (pre post pv : List Value) (tm : Tagmap)
    (cb : List Value → Value) (tg : List String) (pclk : Nat) (off : Nat) :
    partsIdxOf (onePartArgs pre (.part pv tm cb tg pclk) post) off
      = [(off + pre.length, ⟨pv, tm, cb, tg⟩)] := by
  induction pre generalizing off with
  | nil => simp [onePartArgs, appLL, leafListOf, partsIdxOf, partsIdxOf_leafListOf]
  | cons v t ih =>
    simp only [onePartArgs, appLL, leafListOf, partsIdxOf] at ih ⊢
    rw [ih]
    simp [Nat.add_comm, Nat.add_assoc, Nat.add_left_comm]

theorem length_partsIdxOf : ∀ (l : LitList) (off : Nat),
    (partsIdxOf l off).length = countParts l
  | .lnil, _ => rfl
  | .lcons (.arg v clk) t, off => by
    simp [partsIdxOf, countParts, length_partsIdxOf t (off + 1)]
  | .lcons (.part pv tm cb tg clk) t, off => by
    simp [partsIdxOf, countParts, length_partsIdxOf t (off + 1)]
  | .lcons (.oper f tags cc clk px args) t, off => by
    simp [partsIdxOf, countParts, length_partsIdxOf t (off + 1)]

/-- Visiting a list of leaf arguments (`arg.identify(self)` then
`arg.identify(helper)` for each): the list is returned unchanged, the
helper records exactly the positional values and the indexed partitions,
and no `operation` is invoked. -/
theorem identifyArgsP_allLeaves (eclk : Nat) :
    ∀ (l : LitList), allLeaves l = true →
    ∀ (s : EState) (h : Helper),
      (identifyArgsP eclk l s h).1 = l
      ∧ (identifyArgsP eclk l s h).2.2
          = ⟨h.argvals ++ rawVals l, h.parts ++ partsIdxOf l h.argvals.length⟩
      ∧ (identifyArgsP eclk l s h).2.1.calls = s.calls
  | .lnil, _, s, h => by
    refine ⟨rfl, ?_, rfl⟩
    simp [identifyArgsP, rawVals, partsIdxOf]
  | .lcons (.arg v clk) t, hl, s, h => by
    have ht : allLeaves t = true := by
      simpa [allLeaves, isLeaf] using hl
    obtain ⟨ih1, ih2, ih3⟩ := identifyArgsP_allLeaves eclk t ht
      { s with value := v, atroot := false } { h with argvals := h.argvals ++ [v] }
    refine ⟨?_, ?_, ?_⟩
    · simp only [identifyArgsP, identifyP, Helper.onLiteral, Helper.collectArg]
      simp [ih1]
    · simp only [identifyArgsP, identifyP, Helper.onLiteral, Helper.collectArg]
      rw [ih2]
      simp [rawVals, partsIdxOf]
    · simp only [identifyArgsP, identifyP, Helper.onLiteral, Helper.collectArg]
      rw [ih3]
  | .lcons (.part pv tm cb tg clk) t, hl, s, h => by
    have ht : allLeaves t = true := by
      simpa [allLeaves, isLeaf] using hl
    obtain ⟨ih1, ih2, ih3⟩ := identifyArgsP_allLeaves eclk t ht
      (identifyP eclk (.part pv tm cb tg clk) s).2
      ⟨h.argvals ++ [0], h.parts ++ [(h.argvals.length, ⟨pv, tm, cb, tg⟩)]⟩
    refine ⟨?_, ?_, ?_⟩
    · simp only [identifyArgsP, identifyP_part_fst, Helper.onLiteral, Helper.collectPart]
      simp [ih1]
    · simp only [identifyArgsP, identifyP_part_fst, Helper.onLiteral, Helper.collectPart]
      rw [ih2]
      simp [rawVals, partsIdxOf]
    · simp only [identifyArgsP, identifyP_part_fst, Helper.onLiteral, Helper.collectPart]
      rw [ih3, identifyP_part_calls]
  | .lcons (.oper f tags cc clk px args) t, hl, s, h => by
    simp [allLeaves, isLeaf] at hl

theorem selectedIdxs_mem_iff_cond (tags : List String) (tm : Tagmap) (n j : Nat)
    (hj : j < n) :
    j ∈ selectedIdxs tags tm n ↔ (tags = [] ∨ ∃ t ∈ tags, j ∈ tagmapGet tm t) := by
  rw [mem_selectedIdxs]
  by_cases h : tags = []
  · simp [h, hj]
  · simp [h]

/-- **C1.** For an operator evaluated with exactly one partition argument
(plain leaves `pre`, the partition, plain leaves `post`), the selected
index set is the union over the operator's tags of the partition's tagmap
entries; an empty tag set selects every index; a non-empty tag set
matching no entry selects none (silent no-op).  Each selected index gets
`operation` applied to the full positional argument list with that part's
value in the partition's slot, unselected indices keep their values, and
the proxy is partition-shaped with the same tagmap and combine function as
the source partition. -/
theorem c1_single_partition_selection
    (f : List Value → Value) (tags : List String) (opclk : Nat)
    (pre post pv : List Value) (tm : Tagmap) (cb : List Value → Value)
    (ptg : List String) (pclk eclk : Nat) (v0 : Value) (c0 : Nat)
    (hstale : eclk < effv (.oper f tags false opclk none
      (onePartArgs pre (.part pv tm cb ptg pclk) post)))
    (hvalid : ∀ p ∈ tm, ∀ i ∈ p.2, i < pv.length) :
    ∃ pv' : List Value,
      (identifyP eclk (.oper f tags false opclk none
          (onePartArgs pre (.part pv tm cb ptg pclk) post)) ⟨v0, false, c0⟩).1
        = .oper f tags false opclk (some (.partP pv' tm cb ptg))
            (onePartArgs pre (.part pv tm cb ptg pclk) post)
      ∧ pv'.length = pv.length
      ∧ (∀ j, j < pv.length →
          pv'.getD j 0 =
            if tags = [] ∨ ∃ t ∈ tags, j ∈ tagmapGet tm t
            then f (pre ++ pv.getD j 0 :: post)
            else pv.getD j 0) := by
  have hstale' : eclk < max opclk (effvList (onePartArgs pre (.part pv tm cb ptg pclk) post)) := by
    simpa [effv] using hstale
  obtain ⟨h1, h2, _⟩ := identifyArgsP_allLeaves eclk
    (onePartArgs pre (.part pv tm cb ptg pclk) post)
    (allLeaves_onePart pre post pv tm cb ptg pclk)
    ⟨v0, false, c0⟩ ⟨[], []⟩
  refine ⟨partLoop f (pre ++ 0 :: post) pre.length
    (selectedIdxs tags tm pv.length) pv, ?_, ?_, ?_⟩
  · simp only [identifyP, if_pos hstale']
    rw [h2, h1]
    simp [Helper.evaluate, rawVals_onePart, partsIdxOf_onePart, HResult.combineStep]
  · exact partLoop_length _ _ _ _ _
  · intro j hj
    by_cases hmem : j ∈ selectedIdxs tags tm pv.length
    · rw [partLoop_getD_of_mem _ _ _ _ _ _ (selectedIdxs_nodup _ _ _)
        (selectedIdxs_bound _ _ hvalid) hmem, set_append_len,
        if_pos ((selectedIdxs_mem_iff_cond tags tm pv.length j hj).mp hmem)]
    · rw [partLoop_getD_of_not_mem _ _ _ _ _ _ hmem,
        if_neg (fun hc => hmem ((selectedIdxs_mem_iff_cond tags tm pv.length j hj).mpr hc))]

/-- **C4.** Root-level auto-combine: (a) a stale partition node visited at
the traversal root sets the engine value to `combine(partvals)`; (b) a
stale operator at the traversal root whose helper evaluation yields a
partition-shaped result ends the traversal with the engine value equal to
that partition's combine function applied to its current (updated) part
values — for any `may-combine` flag, in particular `false`. -/
theorem c4_root_combine :
    (∀ (pv : List Value) (tm : Tagmap) (cb : List Value → Value) (tg : List String)
        (clk eclk : Nat) (v0 : Value) (c0 : Nat), eclk < clk →
      (identifyP eclk (.part pv tm cb tg clk) ⟨v0, true, c0⟩).2.value = cb pv)
    ∧ (∀ (f : List Value → Value) (tags : List String) (cc : Bool) (clk : Nat)
        (px : Option Proxy) (args : LitList) (eclk : Nat) (v0 : Value) (c0 : Nat)
        (pinfo : PartInfo), eclk < effv (.oper f tags cc clk px args) →
      (Helper.evaluate f tags (identifyArgsP eclk args ⟨v0, false, c0⟩ ⟨[], []⟩).2.2).part
          = some pinfo →
      (identifyP eclk (.oper f tags cc clk px args) ⟨v0, true, c0⟩).2.value
        = pinfo.comb
            (Helper.evaluate f tags
              (identifyArgsP eclk args ⟨v0, false, c0⟩ ⟨[], []⟩).2.2).partvals) := by
  constructor
  · intro pv tm cb tg clk eclk v0 c0 h
    simp [identifyP, h]
  · intro f tags cc clk px args eclk v0 c0 pinfo hstale hpart
    have hstale' : eclk < max clk (effvList args) := by
      simpa [effv] using hstale
    simp only [identifyP, if_pos hstale']
    simp [HResult.combineStep, hpart]

/-!  Frame property: a traversal never changes the part values of any
source `Partition` node in the tree (per-part results go only into the
working copy held by the helper and then into the operator's proxy). -/

mutual
/-- `identifyP` leaves every `Partition` node's part values unchanged. -/
def partsOf_identifyP (eclk : Nat) : ∀ (t : Literal) (s : EState),
    partsOf ((identifyP eclk t s).1) = partsOf t
  | .arg _ _, _ => rfl
  | .part _ _ _ _ _, _ => rfl
  | .oper f tags cc clk px args, s => by
    by_cases hst : max clk (effvList args) > eclk
    · have hl := partsOfList_identifyArgsP eclk args { s with atroot := false } ⟨[], []⟩
      simp only [identifyP, if_pos hst]
      split
      · simp only [partsOf]
        exact hl
      · simp only [partsOf]
        exact hl
    · simp [identifyP, hst]
/-- List version of `partsOf_identifyP`. -/
def partsOfList_identifyArgsP (eclk : Nat) : ∀ (l : LitList) (s : EState) (h : Helper),
    partsOfList ((identifyArgsP eclk l s h).1) = partsOfList l
  | .lnil, _, _ => rfl
  | .lcons a t, s, h => by
    simp only [identifyArgsP, partsOfList]
    rw [partsOf_identifyP eclk a s, partsOfList_identifyArgsP eclk t _ _]
end

/-- **C7.** Evaluating any tree — in particular an operator over a single
partition argument — never mutates a source partition: after the
traversal, every `Partition` node's part values are element-for-element
what they were before (the per-part results of `evaluatePartition` are
written only into a working copy of the part values). -/
theorem c7_partition_not_mutated (eclk : Nat) (t : Literal) (s : EState) :
    partsOf ((identifyP eclk t s).1) = partsOf t :=
  partsOf_identifyP eclk t s

/-!  Clicker preservation: traversals write proxies but never touch any
node's clicker. -/

mutual
/-- `identifyP` preserves every node's effective version. -/
def effv_identifyP (eclk : Nat) : ∀ (t : Literal) (s : EState),
    effv ((identifyP eclk t s).1) = effv t
  | .arg _ _, _ => rfl
  | .part _ _ _ _ _, _ => rfl
  | .oper f tags cc clk px args, s => by
    by_cases hst : max clk (effvList args) > eclk
    · have hl := effvList_identifyArgsP eclk args { s with atroot := false } ⟨[], []⟩
      simp only [identifyP, if_pos hst]
      split
      · simp only [effv]
        rw [hl]
      · simp only [effv]
        rw [hl]
    · simp [identifyP, hst]
/-- List version of `effv_identifyP`. -/
def effvList_identifyArgsP (eclk : Nat) : ∀ (l : LitList) (s : EState) (h : Helper),
    effvList ((identifyArgsP eclk l s h).1) = effvList l
  | .lnil, _, _ => rfl
  | .lcons a t, s, h => by
    simp only [identifyArgsP, effvList]
    rw [effv_identifyP eclk a s, effvList_identifyArgsP eclk t _ _]
end

mutual
/-- `identifyNP` preserves every node's effective version. -/
def effv_identifyNP (eclk : Nat) : ∀ (t : Literal) (s : EState),
    effv ((identifyNP eclk t s).1) = effv t
  | .arg _ _, _ => rfl
  | .part _ _ _ _ _, _ => rfl
  | .oper f tags cc clk px args, s => by
    by_cases hst : max clk (effvList args) > eclk
    · have hl := effvList_identifyArgsNP eclk args s
      simp only [identifyNP, if_pos hst, effv]
      rw [hl]
    · simp [identifyNP, hst]
/-- List version of `effv_identifyNP`. -/
def effvList_identifyArgsNP (eclk : Nat) : ∀ (l : LitList) (s : EState),
    effvList ((identifyArgsNP eclk l s).1) = effvList l
  | .lnil, _ => rfl
  | .lcons a t, s => by
    simp only [identifyArgsNP, effvList]
    rw [effv_identifyNP eclk a s, effvList_identifyArgsNP eclk t _]
end

/-!  Memoized traversals. -/

/-- What a parts-mode visit of a node leaves as engine value when the node
is up to date: an `Argument` always reports its value; a memoized
partition or operator leaves the engine value untouched. -/
def pRead : Literal → Value → Value
  | .arg w _, _ => w
  | .part _ _ _ _ _, v => v
  | .oper _ _ _ _ _ _, v => v

/-- What a no-parts-mode visit of a node leaves as engine value when the
node is up to date: an `Argument` reports its value; a partition leaves the
value untouched; a memoized operator reports its raw cached proxy. -/
def npRead : Literal → Value → Value
  | .arg w _, _ => w
  | .part _ _ _ _ _, v => v
  | .oper _ _ _ _ px _, _ =>
    match px with
    | some (.rawP w) => w
    | _ => 0

theorem memoP_fst (eclk : Nat) (t : Literal) (s : EState) (h : effv t ≤ eclk) :
    (identifyP eclk t s).1 = t := by
  cases t with
  | arg v clk => rfl
  | part pv tm cb tg clk => rfl
  | oper f tags cc clk px args =>
    have hst : ¬ max clk (effvList args) > eclk := by
      simp only [effv] at h
      omega
    simp [identifyP, hst]

theorem memoP_calls (eclk : Nat) (t : Literal) (s : EState) (h : effv t ≤ eclk) :
    (identifyP eclk t s).2.calls = s.calls := by
  cases t with
  | arg v clk => rfl
  | part pv tm cb tg clk => exact identifyP_part_calls eclk pv tm cb tg clk s
  | oper f tags cc clk px args =>
    have hst : ¬ max clk (effvList args) > eclk := by
      simp only [effv] at h
      omega
    simp [identifyP, hst]

theorem memoP_value (eclk : Nat) (t : Literal) (s : EState) (h : effv t ≤ eclk) :
    (identifyP eclk t s).2.value = pRead t s.value := by
  cases t with
  | arg v clk => rfl
  | part pv tm cb tg clk =>
    have hst : ¬ clk > eclk := by
      simp only [effv] at h
      omega
    simp [identifyP, hst, pRead]
  | oper f tags cc clk px args =>
    have hst : ¬ max clk (effvList args) > eclk := by
      simp only [effv] at h
      omega
    simp [identifyP, hst, pRead]

theorem memoNP_fst (eclk : Nat) (t : Literal) (s : EState) (h : effv t ≤ eclk) :
    (identifyNP eclk t s).1 = t := by
  cases t with
  | arg v clk => rfl
  | part pv tm cb tg clk => rfl
  | oper f tags cc clk px args =>
    have hst : ¬ max clk (effvList args) > eclk := by
      simp only [effv] at h
      omega
    simp [identifyNP, hst]

theorem memoNP_calls (eclk : Nat) (t : Literal) (s : EState) (h : effv t ≤ eclk) :
    (identifyNP eclk t s).2.calls = s.calls := by
  cases t with
  | arg v clk => rfl
  | part pv tm cb tg clk =>
    simp only [identifyNP]
    split
    · split <;> rfl
    · rfl
  | oper f tags cc clk px args =>
    have hst : ¬ max clk (effvList args) > eclk := by
      simp only [effv] at h
      omega
    simp [identifyNP, hst]

theorem memoNP_value (eclk : Nat) (t : Literal) (s : EState) (h : effv t ≤ eclk) :
    (identifyNP eclk t s).2.value = npRead t s.value := by
  cases t with
  | arg v clk => rfl
  | part pv tm cb tg clk =>
    have hst : ¬ clk > eclk := by
      simp only [effv] at h
      omega
    simp [identifyNP, hst, npRead]
  | oper f tags cc clk px args =>
    have hst : ¬ max clk (effvList args) > eclk := by
      simp only [effv] at h
      omega
    simp [identifyNP, hst, npRead]

/-- After any parts-mode traversal, re-reading the returned root
memoized-style reproduces the returned engine value. -/
theorem pRead_after (eclk : Nat) (t : Literal) (s : EState) :
    pRead ((identifyP eclk t s).1) ((identifyP eclk t s).2.value)
      = (identifyP eclk t s).2.value := by
  cases t with
  | arg v clk => rfl
  | part pv tm cb tg clk => rfl
  | oper f tags cc clk px args =>
    simp only [identifyP]
    split
    · split <;> rfl
    · rfl

/-- After any no-parts-mode traversal, re-reading the returned root's raw
proxy memoized-style reproduces the returned engine value. -/
theorem npRead_after (eclk : Nat) (t : Literal) (s : EState) :
    npRead ((identifyNP eclk t s).1) ((identifyNP eclk t s).2.value)
      = (identifyNP eclk t s).2.value := by
  cases t with
  | arg v clk => rfl
  | part pv tm cb tg clk => rfl
  | oper f tags cc clk px args =>
    simp only [identifyNP]
    split
    · rfl
    · rfl

/-- **C2.** Memoization: if after a first traversal the engine's horizon
`eclk2` is at or above the tree's effective version (so
`op.clicker > evaluator._clicker` is false at the root and everywhere
below), re-traversing the tree returns the identical engine value, invokes
`operation` zero times, and leaves the tree (all cached proxies)
unchanged — in both the `parts=True` and `parts=False` modes. -/
theorem c2_memoization (t : Literal) (eclk eclk2 : Nat) (v0 w0 : Value)
    (h : effv t ≤ eclk2) :
    ((evalOnceP eclk2 (evalOnceP eclk t v0).1 (evalOnceP eclk t v0).2.value).2.value
        = (evalOnceP eclk t v0).2.value
      ∧ (evalOnceP eclk2 (evalOnceP eclk t v0).1 (evalOnceP eclk t v0).2.value).2.calls = 0
      ∧ (evalOnceP eclk2 (evalOnceP eclk t v0).1 (evalOnceP eclk t v0).2.value).1
          = (evalOnceP eclk t v0).1)
    ∧ ((evalOnceNP eclk2 (evalOnceNP eclk t w0).1 (evalOnceNP eclk t w0).2.value).2.value
        = (evalOnceNP eclk t w0).2.value
      ∧ (evalOnceNP eclk2 (evalOnceNP eclk t w0).1 (evalOnceNP eclk t w0).2.value).2.calls = 0
      ∧ (evalOnceNP eclk2 (evalOnceNP eclk t w0).1 (evalOnceNP eclk t w0).2.value).1
          = (evalOnceNP eclk t w0).1) := by
  have hP : effv (evalOnceP eclk t v0).1 ≤ eclk2 := by
    rw [evalOnceP, effv_identifyP]
    exact h
  have hNP : effv (evalOnceNP eclk t w0).1 ≤ eclk2 := by
    rw [evalOnceNP, effv_identifyNP]
    exact h
  refine ⟨⟨?_, ?_, ?_⟩, ?_, ?_, ?_⟩
  · rw [evalOnceP, memoP_value eclk2 _ _ hP]
    exact pRead_after eclk t ⟨v0, true, 0⟩
  · rw [evalOnceP, memoP_calls eclk2 _ _ hP]
  · rw [evalOnceP, memoP_fst eclk2 _ _ hP]
  · rw [evalOnceNP, memoNP_value eclk2 _ _ hNP]
    exact npRead_after eclk t ⟨w0, true, 0⟩
  · rw [evalOnceNP, memoNP_calls eclk2 _ _ hNP]
  · rw [evalOnceNP, memoNP_fst eclk2 _ _ hNP]

/-!  Multi-partition reduction. -/

theorem combineAll_nil (av : List Value) : combineAll [] av = av := rfl

theorem combineAll_cons (i : Nat) (p : PartInfo) (rest : List (Nat × PartInfo))
    (av : List Value) :
    combineAll ((i, p) :: rest) av = combineAll rest (av.set i (p.comb p.pvals)) := rfl

/-- Replacing every recorded partition slot by `combine(partvals)` turns
the collected positional values into the reduced positional values. -/
theorem combineAll_partsIdxOf : ∀ (l : LitList) (av0 : List Value),
    combineAll (partsIdxOf l av0.length) (av0 ++ rawVals l) = av0 ++ reducedVals l
  | .lnil, av0 => by simp [partsIdxOf, rawVals, reducedVals, combineAll_nil]
  | .lcons (.arg v clk) t, av0 => by
    have ih := combineAll_partsIdxOf t (av0 ++ [v])
    simp only [List.length_append, List.length_singleton] at ih
    simp only [partsIdxOf, rawVals, reducedVals]
    rw [show av0 ++ v :: rawVals t = (av0 ++ [v]) ++ rawVals t by simp,
      show av0 ++ v :: reducedVals t = (av0 ++ [v]) ++ reducedVals t by simp]
    exact ih
  | .lcons (.part pv tm cb tg clk) t, av0 => by
    have ih := combineAll_partsIdxOf t (av0 ++ [cb pv])
    simp only [List.length_append, List.length_singleton] at ih
    simp only [partsIdxOf, rawVals, reducedVals, combineAll_cons]
    rw [set_append_len,
      show av0 ++ cb pv :: rawVals t = (av0 ++ [cb pv]) ++ rawVals t by simp,
      show av0 ++ cb pv :: reducedVals t = (av0 ++ [cb pv]) ++ reducedVals t by simp]
    exact ih
  | .lcons (.oper f tags cc clk px args) t, av0 => by
    have ih := combineAll_partsIdxOf t (av0 ++ [0])
    simp only [List.length_append, List.length_singleton] at ih
    simp only [partsIdxOf, rawVals, reducedVals]
    rw [show av0 ++ (0 : Value) :: rawVals t = (av0 ++ [(0 : Value)]) ++ rawVals t by simp,
      show av0 ++ (0 : Value) :: reducedVals t = (av0 ++ [(0 : Value)]) ++ reducedVals t by simp]
    exact ih

/-- **C3.** For an operator evaluated with two or more partition
arguments, every partition argument is first reduced to a scalar by its
own combine function applied to its current part values, and `operation`
is applied once to the positional list of these reduced scalars plus the
plain argument values; the result is a plain, non-partition-shaped value
(an `Argument`-like proxy), whatever the may-combine flag and the root
position. -/
theorem c3_multi_partition_reduction
    (f : List Value → Value) (tags : List String) (cc : Bool) (opclk : Nat)
    (args : LitList) (eclk : Nat) (v0 : Value) (b0 : Bool) (c0 : Nat)
    (hleaves : allLeaves args = true)
    (hcount : 2 ≤ countParts args)
    (hstale : eclk < effv (.oper f tags cc opclk none args)) :
    (identifyP eclk (.oper f tags cc opclk none args) ⟨v0, b0, c0⟩).2.value
        = f (reducedVals args)
      ∧ (identifyP eclk (.oper f tags cc opclk none args) ⟨v0, b0, c0⟩).1
        = .oper f tags cc opclk (some (.argP (f (reducedVals args)))) args := by
  have hstale' : eclk < max opclk (effvList args) := by
    simpa [effv] using hstale
  obtain ⟨h1, h2, _⟩ := identifyArgsP_allLeaves eclk args hleaves ⟨v0, false, c0⟩ ⟨[], []⟩
  have hlen := length_partsIdxOf args 0
  have hca := combineAll_partsIdxOf args []
  simp only [List.length_nil, List.nil_append] at hca
  rcases hps : partsIdxOf args 0 with _ | ⟨q1, rest⟩
  · rw [hps] at hlen
    simp at hlen
    omega
  rcases rest with _ | ⟨q2, qs⟩
  · rw [hps] at hlen
    simp at hlen
    omega
  rw [hps] at hca
  constructor
  · simp only [identifyP, if_pos hstale']
    rw [h2]
    simp [Helper.evaluate, HResult.combineStep, ite_self, hps, hca]
  · simp only [identifyP, if_pos hstale']
    rw [h2, h1]
    simp [Helper.evaluate, HResult.combineStep, ite_self, hps, hca]

/-!  Equivalence of the two evaluator modes on partition-free trees. -/

mutual
/-- On a partition-free, fully stale tree the parts mode computes the
plain bottom-up value and caches an `Argument`-like proxy at every
operator. -/
def identifyP_pure (eclk : Nat) : ∀ (t : Literal), partFree t = true →
    allStale eclk t = true → ∀ (s : EState),
      (identifyP eclk t s).2.value = pureEval t
      ∧ (∀ (h : Helper),
          Helper.onLiteral h ((identifyP eclk t s).1) = h.collectArg (pureEval t))
  | .arg v clk, _, _, s => ⟨rfl, fun _ => rfl⟩
  | .part pv tm cb tg clk, hp, _, s => by simp [partFree] at hp
  | .oper f tags cc clk px args, hp, hs, s => by
    have hpl : partFreeList args = true := by simpa [partFree] using hp
    have hs' := hs
    simp only [allStale, Bool.and_eq_true, decide_eq_true_eq] at hs'
    have hstale : eclk < max clk (effvList args) := hs'.1
    have hsl : allStaleList eclk args = true := hs'.2
    have hargs := identifyArgsP_pure eclk args hpl hsl { s with atroot := false } ⟨[], []⟩
    refine ⟨?_, ?_⟩
    · simp only [identifyP, if_pos hstale]
      rw [hargs]
      simp [Helper.evaluate, HResult.combineStep, ite_self, combineAll_nil, pureEval]
    · intro h
      simp only [identifyP, if_pos hstale]
      rw [hargs]
      simp [Helper.evaluate, HResult.combineStep, ite_self, combineAll_nil,
        Helper.onLiteral, pureEval]
/-- List version of `identifyP_pure`: the helper collects exactly the
arguments' plain values and records no partition. -/
def identifyArgsP_pure (eclk : Nat) : ∀ (l : LitList), partFreeList l = true →
    allStaleList eclk l = true → ∀ (s : EState) (h : Helper),
      (identifyArgsP eclk l s h).2.2 = ⟨h.argvals ++ pureEvalList l, h.parts⟩
  | .lnil, _, _, s, h => by simp [identifyArgsP, pureEvalList]
  | .lcons a t, hp, hs, s, h => by
    simp only [partFreeList, Bool.and_eq_true] at hp
    simp only [allStaleList, Bool.and_eq_true] at hs
    have hlit := identifyP_pure eclk a hp.1 hs.1 s
    have hrest := identifyArgsP_pure eclk t hp.2 hs.2 (identifyP eclk a s).2
      (Helper.collectArg h (pureEval a))
    simp only [identifyArgsP]
    rw [hlit.2 h, hrest]
    simp [Helper.collectArg, pureEvalList]
end

mutual
/-- On a partition-free, fully stale tree the no-parts mode computes the
plain bottom-up value. -/
def identifyNP_pure (eclk : Nat) : ∀ (t : Literal), partFree t = true →
    allStale eclk t = true → ∀ (s : EState),
      (identifyNP eclk t s).2.value = pureEval t
  | .arg v clk, _, _, s => rfl
  | .part pv tm cb tg clk, hp, _, s => by simp [partFree] at hp
  | .oper f tags cc clk px args, hp, hs, s => by
    have hpl : partFreeList args = true := by simpa [partFree] using hp
    have hs' := hs
    simp only [allStale, Bool.and_eq_true, decide_eq_true_eq] at hs'
    have hargs := identifyArgsNP_pure eclk args hpl hs'.2 s
    simp only [identifyNP, if_pos hs'.1]
    rw [hargs]
    rfl
/-- List version of `identifyNP_pure`: the collected `vals` are the
arguments' plain values. -/
def identifyArgsNP_pure (eclk : Nat) : ∀ (l : LitList), partFreeList l = true →
    allStaleList eclk l = true → ∀ (s : EState),
      (identifyArgsNP eclk l s).2.2 = pureEvalList l
  | .lnil, _, _, s => rfl
  | .lcons a t, hp, hs, s => by
    simp only [partFreeList, Bool.and_eq_true] at hp
    simp only [allStaleList, Bool.and_eq_true] at hs
    have hlit := identifyNP_pure eclk a hp.1 hs.1 s
    have hrest := identifyArgsNP_pure eclk t hp.2 hs.2 (identifyNP eclk a s).2
    simp only [identifyArgsNP, pureEvalList]
    rw [hlit, hrest]
end

/-- **C6.** For every tree containing no partition nodes (freshly built,
so every operator is stale for the engine), a traversal by an
`Evaluator(parts=False)` produces the same final engine value as a
traversal by an `Evaluator(parts=True)`: the fast mode is an optimisation,
not a semantic change. -/
theorem c6_noparts_equivalence (t : Literal) (eclk : Nat) (v0 w0 : Value)
    (hp : partFree t = true) (hs : allStale eclk t = true) :
    (evalOnceP eclk t v0).2.value = (evalOnceNP eclk t w0).2.value := by
  rw [evalOnceP, evalOnceNP, (identifyP_pure eclk t hp hs ⟨v0, true, 0⟩).1,
    identifyNP_pure eclk t hp hs ⟨w0, true, 0⟩]

/-!  The operator node contract. -/

theorem memLL_effv_le (a : Literal) (l : LitList) (h : MemLL a l) :
    effv a ≤ effvList l := by
  induction h with
  | head t => simp [effvList]
  | tail b t hm ih =>
    simp only [effvList]
    exact le_trans ih (le_max_right _ _)

theorem subtree_effv_le (s t : Literal) (h : SubtreeOf s t) : effv s ≤ effv t := by
  induction h with
  | refl => exact le_refl _
  | step f tags cc clk px args hsub hmem ih =>
    simp only [effv]
    exact le_trans ih (le_trans (memLL_effv_le _ _ hmem) (le_max_right _ _))

theorem mem_effvL (a : Literal) (l : List Literal) (h : a ∈ l) : effv a ≤ effvL l := by
  induction l with
  | nil => simp at h
  | cons b t ih =>
    rcases List.mem_cons.mp h with hb | ht
    · subst hb
      simp [effvL]
    · simp only [effvL]
      exact le_trans (ih ht) (le_max_right _ _)

/-- **C8.** `addLiteral` appends the node at the end of the operator's
argument list (preserving earlier arguments and their order) and registers
the node's clicker as a subject of the operator's clicker, so the
operator's effective version is at least the effective version of every
argument and, transitively, of every node in the whole tree below it. -/
theorem c8_addLiteral (o : Operator) (lit : Literal) :
    (o.addLiteral lit).args = o.args ++ [lit]
    ∧ (∀ a ∈ (o.addLiteral lit).args, ∀ s, SubtreeOf s a →
        effv s ≤ effvOp (o.addLiteral lit)) := by
  refine ⟨rfl, ?_⟩
  intro a ha s hsub
  exact le_trans (subtree_effv_le s a hsub)
    (le_trans (mem_effvL a _ ha) (le_max_right _ _))

theorem mem_foldl_tagInsert_of_mem (ns : List String) :
    ∀ (ts : List String) (x : String), x ∈ ts → x ∈ ns.foldl tagInsert ts := by
  induction ns with
  | nil => intro ts x hx; exact hx
  | cons n t ih =>
    intro ts x hx
    refine ih (tagInsert ts n) x ?_
    rw [tagInsert]
    split
    · exact hx
    · exact List.mem_append_left _ hx

theorem mem_foldl_tagInsert_self (ns : List String) :
    ∀ (ts : List String) (x : String), x ∈ ns → x ∈ ns.foldl tagInsert ts := by
  induction ns with
  | nil => intro ts x hx; simp at hx
  | cons n t ih =>
    intro ts x hx
    rcases List.mem_cons.mp hx with hxn | hxt
    · subst hxn
      refine mem_foldl_tagInsert_of_mem t (tagInsert ts x) x ?_
      rw [tagInsert]
      split
      · assumption
      · exact List.mem_append_right _ (List.mem_singleton_self x)
    · exact ih (tagInsert ts n) x hxt

/-- **C5.** `addTags` adds each given name to the operator's selector-tag
set (keeping the existing tags), discards the cached proxy and bumps the
operator's own version (the clicker advances past the global counter, so
past the operator's old local version); `clearTags` empties the tag set
with the same proxy invalidation and version bump. -/
theorem c5_addTags_clearTags (o : Operator) (names : List String) (counter : Nat)
    (h : o.clk ≤ counter) :
    (∀ n ∈ names, n ∈ ((o.addTags names counter).1).tags)
    ∧ (∀ n ∈ o.tags, n ∈ ((o.addTags names counter).1).tags)
    ∧ ((o.addTags names counter).1).proxy = none
    ∧ o.clk < ((o.addTags names counter).1).clk
    ∧ ((o.clearTags counter).1).tags = []
    ∧ ((o.clearTags counter).1).proxy = none
    ∧ o.clk < ((o.clearTags counter).1).clk := by
  refine ⟨?_, ?_, rfl, ?_, rfl, rfl, ?_⟩
  · intro n hn
    exact mem_foldl_tagInsert_self names o.tags n hn
  · intro n hn
    exact mem_foldl_tagInsert_of_mem names o.tags n hn
  · simp only [Operator.addTags]
    omega
  · simp only [Operator.clearTags]
    omega

/-- **C10.** Calling `setCombine` with a flag equal to the operator's
current may-combine value is a complete no-op: the operator (its
may-combine flag, cached proxy, tag set, argument list and clicker) and
the global version counter are unchanged. -/
theorem c10_setCombine_noop (o : Operator) (flag : Bool) (counter : Nat)
    (h : flag = o.cancombine) :
    o.setCombine flag counter = (o, counter) := by
  simp [Operator.setCombine, h]

/-!  The convolution operator. -/

theorem resizeTo_length (xs : List ℚ) (n : Nat) : (resizeTo xs n).length = n := by
  simp only [resizeTo, List.length_append, List.length_take, List.length_replicate]
  omega

theorem resizeTo_eq (xs : List ℚ) (n : Nat) (h : xs.length = n) : resizeTo xs n = xs := by
  subst h
  simp [resizeTo]

theorem convFull_length (v1 v2 : List ℚ) :
    (convFull v1 v2).length = v1.length + v2.length - 1 := by
  simp [convFull]

/-- **C9 (amended).** The convolution operation always returns exactly
`len(v1)` elements; whenever `len(v2) ≤ len(v1)` (and `sum(v2) ≠ 0`, so in
particular `v2` is nonempty) the result equals the "same"-mode convolution
of `v1` and `v2` with every element divided by `sum(v2)` — in general the
result is that quotient truncated (or zero-padded) to `len(v1)`
elements. -/
theorem c9_convolution_amended :
    (∀ (v1 v2 : List ℚ), (convOp v1 v2).length = v1.length)
    ∧ (∀ (v1 v2 : List ℚ), v2.sum ≠ 0 → v2.length ≤ v1.length →
        convOp v1 v2 = (convSame v1 v2).map (fun x => x / v2.sum)) := by
  constructor
  · intro v1 v2
    exact resizeTo_length _ _
  · intro v1 v2 hsum hle
    have hne : v2 ≠ [] := by
      intro hc
      subst hc
      simp at hsum
    have hpos : 0 < v2.length := List.length_pos.mpr hne
    have hdiv : (v2.length - 1) / 2 ≤ v2.length - 1 := Nat.div_le_self _ _
    have hlen : ((convSame v1 v2).map (fun x => x / v2.sum)).length = v1.length := by
      simp only [List.length_map, convSame, List.length_take, List.length_drop,
        convFull_length, Nat.max_eq_left hle, Nat.min_eq_right hle]
      omega
    rw [convOp, resizeTo_eq _ _ hlen]

/-- **C9 (counterexample).** The claim as stated fails when
`len(v2) > len(v1)`: for `v1 = [1]`, `v2 = [1, 1, 1]` the operation
truncates to one element, so it does not equal the three-element
"same"-mode convolution divided by `sum(v2)`. -/
theorem c9_counterexample :
    ¬ (convOp [1] [1, 1, 1]
        = (convSame [1] [1, 1, 1]).map (fun x => x / ([1, 1, 1] : List ℚ).sum)) := by
  intro heq
  have hlen := congrArg List.length heq
  simp only [convOp, resizeTo_length, List.length_map, convSame, List.length_take,
    List.length_drop, convFull_length] at hlen
  norm_num at hlen

/-!  Concrete instances for the witnesses. -/

def fW1 : List Value → Value := fun l => l.sum + 1

def cbW1 : List Value → Value := fun l => l.sum

def tmW1 : Tagmap := [("a", [0, 1]), ("b", [2])]

def partW1 : Literal := .part [5, 6, 7] tmW1 cbW1 ["a", "b"] 0

def opW1 : Literal := .oper fW1 ["b"] false 1 none (onePartArgs [10] partW1 [])

/-- Witness for C1: a three-part partition tagged `a` on parts 0 and 1 and
`b` on part 2, under an operator tagged `b`. -/
theorem c1_witness :
    (0 : Nat) < effv opW1
    ∧ (∀ p ∈ tmW1, ∀ i ∈ p.2, i < ([5, 6, 7] : List Value).length)
    ∧ ∃ pv' : List Value,
        (identifyP 0 opW1 ⟨0, false, 0⟩).1
          = .oper fW1 ["b"] false 1 (some (.partP pv' tmW1 cbW1 ["a", "b"]))
              (onePartArgs [10] partW1 [])
        ∧ pv'.length = ([5, 6, 7] : List Value).length
        ∧ (∀ j, j < ([5, 6, 7] : List Value).length →
            pv'.getD j 0 =
              if (["b"] : List String) = [] ∨ ∃ t ∈ (["b"] : List String), j ∈ tagmapGet tmW1 t
              then fW1 ([10] ++ ([5, 6, 7] : List Value).getD j 0 :: [])
              else ([5, 6, 7] : List Value).getD j 0) :=
  ⟨by decide, by decide,
    c1_single_partition_selection fW1 ["b"] 1 [10] [] [5, 6, 7] tmW1 cbW1
      ["a", "b"] 0 0 0 0 (by decide) (by decide)⟩

def tW2 : Literal :=
  .oper (fun l => l.sum) [] false 1 none (.lcons (.arg 3 0) (.lcons (.arg 4 0) .lnil))

/-- Witness for C2: a binary sum over two leaves, first traversed with
horizon 0 (stale) and re-traversed with horizon 5 (memoized). -/
theorem c2_witness :
    effv tW2 ≤ 5
    ∧ (((evalOnceP 5 (evalOnceP 0 tW2 0).1 (evalOnceP 0 tW2 0).2.value).2.value
          = (evalOnceP 0 tW2 0).2.value
        ∧ (evalOnceP 5 (evalOnceP 0 tW2 0).1 (evalOnceP 0 tW2 0).2.value).2.calls = 0
        ∧ (evalOnceP 5 (evalOnceP 0 tW2 0).1 (evalOnceP 0 tW2 0).2.value).1
          = (evalOnceP 0 tW2 0).1)
      ∧ ((evalOnceNP 5 (evalOnceNP 0 tW2 7).1 (evalOnceNP 0 tW2 7).2.value).2.value
          = (evalOnceNP 0 tW2 7).2.value
        ∧ (evalOnceNP 5 (evalOnceNP 0 tW2 7).1 (evalOnceNP 0 tW2 7).2.value).2.calls = 0
        ∧ (evalOnceNP 5 (evalOnceNP 0 tW2 7).1 (evalOnceNP 0 tW2 7).2.value).1
          = (evalOnceNP 0 tW2 7).1)) :=
  ⟨by decide, c2_memoization tW2 0 5 0 7 (by decide)⟩

def fW3 : List Value → Value := fun l => l.sum

def cbW3a : List Value → Value := fun l => l.sum

def cbW3b : List Value → Value := fun l => l.prod

def argsW3 : LitList :=
  .lcons (.part [1, 2] [("a", [0])] cbW3a ["a"] 0)
    (.lcons (.arg 10 0) (.lcons (.part [3, 4] [] cbW3b [] 0) .lnil))

/-- Witness for C3: two partitions and one plain argument under a ternary
sum. -/
theorem c3_witness :
    allLeaves argsW3 = true
    ∧ 2 ≤ countParts argsW3
    ∧ (0 : Nat) < effv (.oper fW3 ["a"] false 1 none argsW3)
    ∧ (identifyP 0 (.oper fW3 ["a"] false 1 none argsW3) ⟨0, true, 0⟩).2.value
        = fW3 (reducedVals argsW3)
    ∧ (identifyP 0 (.oper fW3 ["a"] false 1 none argsW3) ⟨0, true, 0⟩).1
        = .oper fW3 ["a"] false 1 (some (.argP (fW3 (reducedVals argsW3)))) argsW3 :=
  ⟨by decide, by decide, by decide,
    (c3_multi_partition_reduction fW3 ["a"] false 1 argsW3 0 0 true 0
      (by decide) (by decide) (by decide)).1,
    (c3_multi_partition_reduction fW3 ["a"] false 1 argsW3 0 0 true 0
      (by decide) (by decide) (by decide)).2⟩

def fW4 : List Value → Value := fun l => l.sum + 1

def cbW4 : List Value → Value := fun l => l.sum

def argsW4 : LitList := .lcons (.part [5, 6] [("a", [0])] cbW4 ["a"] 0) .lnil

def pinfoW4 : PartInfo := ⟨[5, 6], [("a", [0])], cbW4, ["a"]⟩

/-- Witness for C4: a stale partition at the root, and a stale operator at
the root over one partition argument with the may-combine flag false. -/
theorem c4_witness :
    ((0 : Nat) < 1
      ∧ (identifyP 0 (.part [7, 8] [] cbW4 [] 1) ⟨0, true, 0⟩).2.value = cbW4 [7, 8])
    ∧ ((0 : Nat) < effv (.oper fW4 [] false 1 none argsW4)
      ∧ (Helper.evaluate fW4 [] (identifyArgsP 0 argsW4 ⟨0, false, 0⟩ ⟨[], []⟩).2.2).part
          = some pinfoW4
      ∧ (identifyP 0 (.oper fW4 [] false 1 none argsW4) ⟨0, true, 0⟩).2.value
          = pinfoW4.comb
              (Helper.evaluate fW4 []
                (identifyArgsP 0 argsW4 ⟨0, false, 0⟩ ⟨[], []⟩).2.2).partvals) :=
  ⟨⟨by decide, c4_root_combine.1 [7, 8] [] cbW4 [] 1 0 0 0 (by decide)⟩,
    ⟨by decide, rfl,
      c4_root_combine.2 fW4 [] false 1 none argsW4 0 0 0 pinfoW4 (by decide) rfl⟩⟩

def opW5 : Operator :=
  ⟨some "add", some "+", 2, 1, fun l => l.sum, [], ["a"], false, some (.argP 5), 2⟩

/-- Witness for C5: adding tags `x`, `y` to an operator already tagged `a`
with a cached proxy and clicker version 2, at global counter 4. -/
theorem c5_witness :
    opW5.clk ≤ 4
    ∧ ("x" ∈ ((opW5.addTags ["x", "y"] 4).1).tags)
    ∧ ("a" ∈ ((opW5.addTags ["x", "y"] 4).1).tags)
    ∧ ((opW5.addTags ["x", "y"] 4).1).proxy = none
    ∧ opW5.clk < ((opW5.addTags ["x", "y"] 4).1).clk
    ∧ ((opW5.clearTags 4).1).tags = []
    ∧ ((opW5.clearTags 4).1).proxy = none
    ∧ opW5.clk < ((opW5.clearTags 4).1).clk := by
  obtain ⟨h1, h2, h3, h4, h5, h6, h7⟩ := c5_addTags_clearTags opW5 ["x", "y"] 4 (by decide)
  exact ⟨by decide, h1 "x" (by decide), h2 "a" (by decide), h3, h4, h5, h6, h7⟩

def tW6 : Literal :=
  .oper (fun l => l.sum) [] false 1 none
    (.lcons (.arg 2 0)
      (.lcons (.oper (fun l => l.prod) [] false 1 none (.lcons (.arg 3 0) .lnil)) .lnil))

/-- Witness for C6: a partition-free two-operator tree evaluated by both
modes from horizon 0. -/
theorem c6_witness :
    partFree tW6 = true
    ∧ allStale 0 tW6 = true
    ∧ (evalOnceP 0 tW6 5).2.value = (evalOnceNP 0 tW6 9).2.value :=
  ⟨by decide, by decide, c6_noparts_equivalence tW6 0 5 9 (by decide) (by decide)⟩

def opW8 : Operator :=
  ⟨some "add", some "+", 2, 1, fun l => l.sum, [], [], false, none, 1⟩

def litW8 : Literal := .arg 7 3

/-- Witness for C8: appending a leaf with clicker version 3 to an operator
with clicker version 1. -/
theorem c8_witness :
    ((opW8.addLiteral litW8).args = opW8.args ++ [litW8])
    ∧ litW8 ∈ (opW8.addLiteral litW8).args
    ∧ SubtreeOf litW8 litW8
    ∧ effv litW8 ≤ effvOp (opW8.addLiteral litW8) := by
  have h := c8_addLiteral opW8 litW8
  have hmem : litW8 ∈ (opW8.addLiteral litW8).args := by
    rw [h.1]
    exact List.mem_append_right _ (List.mem_singleton_self _)
  exact ⟨h.1, hmem, SubtreeOf.refl _, h.2 litW8 hmem litW8 (SubtreeOf.refl _)⟩

/-- Witness for C9 (amended): the spec's own example `v1 = [1,2,3,4]`,
`v2 = [1,1]`, where the result has length 4 and equals the "same"-mode
convolution divided elementwise by 2. -/
theorem c9_witness :
    (([1, 1] : List ℚ).sum ≠ 0)
    ∧ ([1, 1] : List ℚ).length ≤ ([1, 2, 3, 4] : List ℚ).length
    ∧ (convOp [1, 2, 3, 4] [1, 1]).length = ([1, 2, 3, 4] : List ℚ).length
    ∧ convOp [1, 2, 3, 4] [1, 1]
        = (convSame [1, 2, 3, 4] [1, 1]).map (fun x => x / ([1, 1] : List ℚ).sum) :=
  ⟨by norm_num, by norm_num, c9_convolution_amended.1 [1, 2, 3, 4] [1, 1],
    c9_convolution_amended.2 [1, 2, 3, 4] [1, 1] (by norm_num) (by norm_num)⟩

def opW10 : Operator :=
  ⟨none, none, 2, 1, fun l => l.prod, [], ["b"], false, some (.argP 3), 5⟩

/-- Witness for C10: `setCombine(False)` on an operator whose may-combine
flag is already false, with tags, a cached proxy and clicker version 5. -/
theorem c10_witness :
    false = opW10.cancombine ∧ opW10.setCombine false 7 = (opW10, 7) :=
  ⟨rfl, c10_setCombine_noop opW10 false 7 rfl⟩

end Srfit
